import Mathlib

/-!
Verification of the airline-review scraping and sentiment pipeline
(`Scrape-NLP-LDA`): a shallow embedding of the review storage format
(`storage.py`), the HTML review extractor (`scraping.py`), the per-airline
consolidation (`processing.py`) and the NLP / sentiment signal functions
(`nlp.py`), together with theorems settling the specification's claims.

Text is modelled as `List Char`; the Python string operations used by the
code (`str.split`, `str.strip`, `str.lower`, `str.replace`, regular
expression substitution with the concrete patterns appearing in `nlp.py`)
are embedded as executable functions on character lists.
-/

namespace ScrapeNLP

/-- Review text and all other strings are modelled as lists of characters. -/
abbrev Str := List Char

/-- The whitespace characters of Python's `str.strip` / `str.split()` /
regex `\s` (restricted to the ASCII range, which is all the pipeline's
fixed tokens use). -/
def isSpace (c : Char) : Bool :=
  c = ' ' || c = '\t' || c = '\n' || c = '\r' || c = '\x0B' || c = '\x0C'

/-- Remove leading whitespace (left half of Python's `str.strip()`). -/
def trimLeft (s : Str) : Str := s.dropWhile isSpace

/-- Remove trailing whitespace (right half of Python's `str.strip()`). -/
def trimRight (s : Str) : Str := (s.reverse.dropWhile isSpace).reverse

/-- Python's `str.strip()`: remove leading and trailing whitespace. -/
def trim (s : Str) : Str := trimLeft (trimRight s)

/-- Python's `str.lower()` (the airline names and review tokens handled by
the pipeline are ASCII, where `Char.toLower` agrees with Python). -/
def lowerStr (s : Str) : Str := s.map Char.toLower

/-- True when character `c` does not occur in `s`. -/
def noChar (c : Char) (s : Str) : Bool := s.all (fun d => !(d = c))

/-- Python's `s.split(sep)` for a one-character separator `sep`, as used by
`pandas.read_csv(..., sep="|")` to cut a line into fields: the result always
has one more element than the number of separator occurrences. -/
def pySplitAll (sep : Char) : Str → List Str
  | [] => [[]]
  | c :: rest =>
    if c = sep then [] :: pySplitAll sep rest
    else
      match pySplitAll sep rest with
      | [] => [[c]]
      | x :: xs => (c :: x) :: xs

/-- Python's `s.split(sep, 1)` restricted to its two outcomes: `none` when
`sep` does not occur in `s` (Python returns the one-element list `[s]`),
and `some (a, b)` when `s = a ++ sep :: b` with `a` the part before the
first occurrence (Python returns `[a, b]`). -/
def splitFirst (sep : Char) : Str → Option (Str × Str)
  | [] => none
  | c :: rest =>
    if c = sep then some ([], rest)
    else
      match splitFirst sep rest with
      | none => none
      | some (a, b) => some (c :: a, b)

/-- Helper for `splitWS`: accumulates the current (reversed) token. -/
def splitWSAux : Str → Str → List Str
  | [], acc => if acc = [] then [] else [acc.reverse]
  | c :: rest, acc =>
    if isSpace c then
      if acc = [] then splitWSAux rest []
      else acc.reverse :: splitWSAux rest []
    else splitWSAux rest (c :: acc)

/-- Python's `s.split()` with no argument: the list of maximal
whitespace-free runs, with no empty tokens. -/
def splitWS (s : Str) : List Str := splitWSAux s []

/- ## storage.py -/

/-- The header line written by `save_reviews_to_file`. -/
def headerLine : Str := "Airline Name | Title | Rating | Verified | Review_Text".toList

/-- The default verification tag of `save_reviews_to_file`. -/
def notVerifiedStr : Str := "Not Verified".toList

/-- The field separator written between fields: `" | "`. -/
def fieldSep : Str := [' ', '|', ' ']

/-- The line `save_reviews_to_file` writes for one raw review record, or
`none` for a record that is skipped.  Mirrors the loop body: a record with
exactly 4 elements `[airline, title, rating, review_text]` has its
`review_text` split on the first `"|"`; if the split yields two parts both
are stripped and become `Verified` / `Review_Text`, otherwise `Verified`
defaults to `"Not Verified"` and the body is written unmodified.  Records
of any other shape are skipped (`continue`), producing no line. -/
def writeReviewLine (review : List Str) : Option Str :=
  match review with
  | [airline, title, rating, review_text] =>
    match splitFirst '|' review_text with
    | some (v, rest) =>
      some (airline ++ fieldSep ++ title ++ fieldSep ++ rating ++ fieldSep ++
            trim v ++ fieldSep ++ trim rest)
    | none =>
      some (airline ++ fieldSep ++ title ++ fieldSep ++ rating ++ fieldSep ++
            notVerifiedStr ++ fieldSep ++ review_text)
  | _ => none

/-- `save_reviews_to_file(reviews)`: the file contents as a list of lines —
the header line, a blank line, then one line per record that has the
expected 4-element shape (other records are skipped with a diagnostic). -/
def save_reviews_to_file (reviews : List (List Str)) : List Str :=
  headerLine :: [] :: reviews.filterMap writeReviewLine

/-- The tabular result of loading the reviews file: the (stripped) column
names and one list of raw fields per data line. -/
structure ReviewTable where
  header : List Str
  rows : List (List Str)
deriving DecidableEq

/-- The parsing performed by `pd.read_csv(..., sep="|", skiprows=[1])`
followed by `df.columns.str.strip()`: drop the file's second line
(`skiprows=[1]`), drop blank lines (pandas' `skip_blank_lines` default),
take the first remaining line as the header, split every line on `"|"`,
and strip whitespace from the column names only. -/
def parseReviewLines (lines : List Str) : ReviewTable :=
  match (lines.eraseIdx 1).filter (fun l => !(l = [])) with
  | [] => ⟨[], []⟩
  | h :: rest => ⟨(pySplitAll '|' h).map trim, rest.map (pySplitAll '|')⟩

/-- The file name hard-coded inside `load_reviews_df`. -/
def allReviewsName : Str := "all_reviews.txt".toList

/-- `load_reviews_df(file_path)`, with the file system modelled as a map
from path to file lines.  The body executes
`pd.read_csv("all_reviews.txt", sep="|", ..., skiprows=[1])` — the string
literal `"all_reviews.txt"`, not the `file_path` parameter — and then
strips the column names. -/
def load_reviews_df (fs : Str → List Str) (file_path : Str) : ReviewTable :=
  parseReviewLines (fs allReviewsName)

/- ## scraping.py -/

/-- One HTML element as the extractor sees it: its tag, its class list,
and the text of the first matching `<h2>`, `<div class="rating-10">` and
`<div class="text_content">` descendant (if any) — the only projections
`scrape_reviews_from_file` performs on a review container. -/
structure Article where
  tag : Str
  classes : List Str
  h2text : Option Str
  ratingText : Option Str
  bodyText : Option Str
deriving DecidableEq

/-- The container selector of `soup.find_all("article",
class_="comp_media-review-rated")`: an `article` element carrying that
class (BeautifulSoup matches the multi-valued class attribute by
membership). -/
def isReviewArticle (e : Article) : Bool :=
  e.tag = "article".toList && e.classes.any (fun c => c = "comp_media-review-rated".toList)

/-- The record built for one review container: the `<h2>` text or
`"No Title"`, the first character of the stripped rating text or
`"No Rating"` (also when the stripped text is empty), and the body text or
`"No Review"`. -/
def extractArticle (article : Article) : List Str :=
  [ (match article.h2text with
     | some t => t
     | none => "No Title".toList),
    (match article.ratingText with
     | some s =>
       (match trim s with
        | [] => "No Rating".toList
        | c :: _ => [c])
     | none => "No Rating".toList),
    (match article.bodyText with
     | some b => b
     | none => "No Review".toList) ]

/-- `scrape_reviews_from_file(file_path, max_reviews=20)` applied to the
parsed document: all review containers in document order, capped at
`max_reviews`, each turned into a `[title, rating, review_text]` record. -/
def scrape_reviews_from_file (doc : List Article) (max_reviews : Nat := 20) :
    List (List Str) :=
  ((doc.filter isReviewArticle).take max_reviews).map extractArticle

/-- The path `download_airline_reviews` writes to on a 200 response:
`f"data/{formatted_airline}.html"` where `formatted_airline =
airline.lower().replace(" ", "-")`. -/
def download_target_path (airline : Str) : Str :=
  "data/".toList ++ ((lowerStr airline).map (fun c => if c = ' ' then '-' else c)) ++
    ".html".toList

/- ## processing.py -/

/-- The path whose existence `process_airline_reviews` checks:
`"data/" + formatted_airline + ".html"` where `formatted_airline =
airline.lower().replace(" ", "-")`. -/
def process_airline_file_path (airline : Str) : Str :=
  "data/".toList ++ ((lowerStr airline).map (fun c => if c = ' ' then '-' else c)) ++
    ".html".toList

/-- The fixed airline list of `scraping.py`. -/
def airlines : List Str :=
  ["British Airways", "Lufthansa", "Emirates", "Qatar", "Singapore Airlines",
   "American Airlines"].map String.toList

/-- `process_airline_reviews(airline)`, with the local HTML cache modelled
as a map from path to parsed document (`none` = `os.path.exists` is
false).  When the cached document exists the extractor runs (with the
default cap 20) and every record is labelled with the airline; otherwise a
diagnostic is printed and the airline contributes the empty list. -/
def process_airline_reviews (fs : Str → Option (List Article)) (airline : Str) :
    List (List Str) :=
  match fs (process_airline_file_path airline) with
  | some doc => (scrape_reviews_from_file doc).map (fun r => airline :: r)
  | none => []

/-- `consolidate_reviews()`: extend an accumulator with each airline's
contribution, in the fixed airline order. -/
def consolidate_reviews (fs : Str → Option (List Article)) : List (List Str) :=
  airlines.foldl (fun acc a => acc ++ process_airline_reviews fs a) []

/- ## nlp.py: text cleaning -/

/-- Python's `string.punctuation`, by character code: the ASCII ranges
33–47, 58–64, 91–96 and 123–126. -/
def punctuationChars : Str :=
  (List.range' 33 15 ++ List.range' 58 7 ++ List.range' 91 6 ++ List.range' 123 4).map
    Char.ofNat

/-- `cleaning_punctuations`: `text.translate(str.maketrans('', '',
string.punctuation))` deletes every character of `string.punctuation`. -/
def cleaning_punctuations (text : Str) : Str :=
  text.filter (fun c => !(punctuationChars.contains c))

/-- `cleaning_numbers`: `re.sub(r'\d+', '', text)` deletes every maximal
digit run, i.e. every digit character (ASCII digits; the pipeline's tokens
are ASCII). -/
def cleaning_numbers (text : Str) : Str :=
  text.filter (fun c => !(c.isDigit))

/-- The literal `"https://"` of the URL pattern. -/
def httpsLit : Str := "https://".toList

/-- The literal `"http://"` of the URL pattern. -/
def httpLit : Str := "http://".toList

/-- The literal `"www."` of the URL pattern. -/
def wwwLit : Str := "www.".toList

/-- Which alternative of `https?://|www\.` matches at the start of `l`:
the regex engine tries `https://` (greedy `s?`), then `http://`, then
`www.` — at most one of the three can be a prefix of `l`. -/
def pickUrlLit (l : Str) : Option Str :=
  if httpsLit.isPrefixOf l then some httpsLit
  else if httpLit.isPrefixOf l then some httpLit
  else if wwwLit.isPrefixOf l then some wwwLit
  else none

/-- A match of `https?://\S+|www\.\S+` anchored at the start of `l`:
the literal alternative followed by a maximal nonempty run of non-space
characters (greedy `\S+`).  Returns the rest of the input after the
match. -/
def urlMatchAt (l : Str) : Option Str :=
  match pickUrlLit l with
  | none => none
  | some p =>
    let r := l.drop p.length
    let tok := r.takeWhile (fun d => !(isSpace d))
    if tok = [] then none else some (r.drop tok.length)

theorem pickUrlLit_some {l p : Str} (h : pickUrlLit l = some p) :
    p.isPrefixOf l = true ∧ 0 < p.length := by
  unfold pickUrlLit at h
  split_ifs at h with h1 h2 h3 <;> cases h <;>
    exact ⟨by assumption, by decide⟩

theorem urlMatchAt_some_length {l r : Str} (h : urlMatchAt l = some r) :
    r.length < l.length := by
  unfold urlMatchAt at h
  cases hp : pickUrlLit l with
  | none => rw [hp] at h; exact absurd h (by simp)
  | some p =>
    rw [hp] at h
    simp only at h
    split_ifs at h with htok
    cases h
    obtain ⟨hpre, hlen⟩ := pickUrlLit_some hp
    have hple : p.length ≤ l.length :=
      (List.isPrefixOf_iff_prefix.mp hpre).length_le
    calc ((l.drop p.length).drop _).length
        ≤ (l.drop p.length).length := by
          rw [List.length_drop]; omega
      _ < l.length := by rw [List.length_drop]; omega

/-- `cleaning_urls`: `re.sub(r'https?://\S+|www\.\S+', '', text)` — scan
left to right; at each position either remove an anchored match and
continue after it, or keep the character and move on. -/
def cleaning_urls : Str → Str
  | [] => []
  | c :: rest =>
    match h : urlMatchAt (c :: rest) with
    | some r2 => cleaning_urls r2
    | none => c :: cleaning_urls rest
termination_by l => l.length
decreasing_by
  · exact urlMatchAt_some_length h
  · simp

/- ## nlp.py: sentiment and signals -/

/-- The `"Negative"` sentiment label. -/
def negativeLbl : Str := "Negative".toList

/-- The `"Neutral"` sentiment label. -/
def neutralLbl : Str := "Neutral".toList

/-- The `"Positive"` sentiment label. -/
def positiveLbl : Str := "Positive".toList

/-- `get_sentiment_label(score)`: `Negative` for `score < 0`, `Neutral`
for `score == 0`, else `Positive`.  TextBlob polarity values are rational
(averages of lexicon entries); the comparison structure is faithfully
mirrored over `ℚ`. -/
def get_sentiment_label (score : ℚ) : Str :=
  if score < 0 then negativeLbl
  else if score = 0 then neutralLbl
  else positiveLbl

/-- One row of the processed review table, restricted to the columns the
verification / delay analyses read. -/
structure NlpRow where
  airlineName : Str
  verified : Str
  sentiment : Str
  cleanReview : Str
deriving DecidableEq

/-- The verified-tag literal of `analyse_verification_status` — the source
file contains the mojibake text `'âœ… Trip Verified'` (code points 226,
339, 8230, then `" Trip Verified"`). -/
def verifiedTag : Str :=
  [Char.ofNat 226, Char.ofNat 339, Char.ofNat 8230] ++ " Trip Verified".toList

/-- Python division, which raises `ZeroDivisionError` on a zero
denominator. -/
def pyDiv (a b : ℚ) : Except String ℚ :=
  if b = 0 then Except.error "ZeroDivisionError" else Except.ok (a / b)

/-- Python's `round` half-to-even on an exact rational. -/
def roundHalfEven (q : ℚ) : ℤ :=
  if q - ⌊q⌋ < 1 / 2 then ⌊q⌋
  else if 1 / 2 < q - ⌊q⌋ then ⌊q⌋ + 1
  else if ⌊q⌋ % 2 = 0 then ⌊q⌋ else ⌊q⌋ + 1

/-- Python's `round(x, 1)`. -/
def pyRound1 (q : ℚ) : ℚ := (roundHalfEven (q * 10) : ℚ) / 10

/-- The numbers `analyse_verification_status` computes and prints. -/
structure VerifStats where
  total_reviews : Nat
  verified_reviews : Nat
  non_verified_reviews : Nat
  verified_percentage : ℚ
  non_verified_percentage : ℚ
  negative_count : Nat
  negative_non_verified_count : Nat
  negative_non_verified_percentage : ℚ
deriving DecidableEq

/-- `analyse_verification_status(data)`: counts the rows whose `Verified`
value equals each of the two literal tags, divides by the total row count,
then restricts to `Sentiment == 'Negative'` rows and divides the
not-verified count among them by the size of that negative subset.  Each
division is Python `/` and raises `ZeroDivisionError` on an empty
denominator — there is no guard in the source. -/
def analyse_verification_status (data : List NlpRow) : Except String VerifStats := do
  let total_reviews := data.length
  let verified_reviews := (data.filter (fun r => r.verified = verifiedTag)).length
  let non_verified_reviews := (data.filter (fun r => r.verified = notVerifiedStr)).length
  let vq ← pyDiv (verified_reviews : ℚ) (total_reviews : ℚ)
  let verified_percentage := pyRound1 (vq * 100)
  let nq ← pyDiv (non_verified_reviews : ℚ) (total_reviews : ℚ)
  let non_verified_percentage := pyRound1 (nq * 100)
  let negative_reviews := data.filter (fun r => r.sentiment = negativeLbl)
  let negative_non_verified := negative_reviews.filter (fun r => r.verified = notVerifiedStr)
  let nnq ← pyDiv (negative_non_verified.length : ℚ) (negative_reviews.length : ℚ)
  let negative_non_verified_percentage := pyRound1 (nnq * 100)
  Except.ok ⟨total_reviews, verified_reviews, non_verified_reviews,
    verified_percentage, non_verified_percentage, negative_reviews.length,
    negative_non_verified.length, negative_non_verified_percentage⟩

/-- The fixed keyword list of `analyse_delays`. -/
def delay_keywords : List Str :=
  ["delay", "delayed", "late", "cancellation", "cancelled"].map String.toList

/-- The per-row count of `analyse_delays`:
`sum(1 for keyword in delay_keywords if keyword in review_text.split())`
over the lower-cased clean review — each keyword contributes at most one,
by exact-token membership in the whitespace-split text. -/
def keywordCount (clean : Str) : Nat :=
  (delay_keywords.filter (fun k => (splitWS (lowerStr clean)).contains k)).length

/-- One iteration of the keyword-count loop:
`airline_keyword_counts.setdefault(airline, 0)` followed by
`airline_keyword_counts[airline] += keyword_count`, on a dict modelled as
an insertion-ordered association list. -/
def stepCounts (acc : List (Str × Nat)) (row : NlpRow) : List (Str × Nat) :=
  let c := keywordCount row.cleanReview
  if acc.any (fun p => p.1 = row.airlineName) then
    acc.map (fun p => if p.1 = row.airlineName then (p.1, p.2 + c) else p)
  else acc ++ [(row.airlineName, c)]

/-- `analyse_delays(data)`: restrict to `Sentiment == 'Negative'` rows and
fold the keyword-count loop over them; the resulting dict items become the
`(Airline Name, Delay_Keyword_Count)` rows. -/
def analyse_delays (data : List NlpRow) : List (Str × Nat) :=
  (data.filter (fun r => r.sentiment = negativeLbl)).foldl stepCounts []

/- ## Specification-side definitions -/

/-- A well-formed raw review record in the sense of the serializer
round-trip property: exactly the 4 positional elements
`[airline, title, rating, body]`, the first three free of the separator
character and of newlines, and the body newline-free with at most one
embedded separator (the verification/body splitter). -/
def wellFormedRecord (r : List Str) : Bool :=
  match r with
  | [a, t, rt, b] =>
    noChar '|' a && noChar '\n' a && noChar '|' t && noChar '\n' t &&
    noChar '|' rt && noChar '\n' rt && noChar '\n' b &&
    decide ((b.filter (fun c => c = '|')).length ≤ 1)
  | _ => false

/-- A well-formed list of raw review records. -/
def wellFormed (reviews : List (List Str)) : Bool := reviews.all wellFormedRecord

/-- Modelled from the spec: the row the round-trip property predicts for
one input record — Airline/Title/Rating equal to the inputs modulo
whitespace trimming, and Verified/Review_Text obtained by splitting the
body on the first embedded separator only, with Verified defaulting to
`"Not Verified"` and the body used unmodified when no separator is
present. -/
def specRoundTripRow (r : List Str) : List Str :=
  match r with
  | [a, t, rt, b] =>
    match splitFirst '|' b with
    | some (v, rest) => [trim a, trim t, trim rt, trim v, trim rest]
    | none => [trim a, trim t, trim rt, notVerifiedStr, trim b]
  | _ => []

/-- Keep the first occurrence of every element (the key order of an
insertion-ordered dict). -/
def firstDedup : List Str → List Str
  | [] => []
  | a :: l => a :: firstDedup (l.filter (fun b => !(b = a)))
termination_by l => l.length
decreasing_by
  exact Nat.lt_succ_of_le (List.length_filter_le _ _)

/-- The accumulated total of per-row keyword counts of airline `a` over a
row list. -/
def airlineTotal (a : Str) (rows : List NlpRow) : Nat :=
  ((rows.filter (fun r => r.airlineName = a)).map
    (fun r => keywordCount r.cleanReview)).sum

/-- Modelled from the spec: `delay_signal` restricted to the Negative
rows produces exactly one row per airline appearing in the negative
subset, in order of first appearance, carrying the accumulated per-airline
total of exact-token keyword matches. -/
def specDelaySignal (data : List NlpRow) : List (Str × Nat) :=
  let neg := data.filter (fun r => r.sentiment = negativeLbl)
  (firstDedup (neg.map (fun r => r.airlineName))).map
    (fun a => (a, airlineTotal a neg))

/- ## General helper lemmas -/

theorem foldl_extend_eq_flatten {α β : Type} (f : α → List β) :
    ∀ (l : List α) (acc : List β),
      l.foldl (fun acc a => acc ++ f a) acc = acc ++ (l.map f).flatten
  | [], acc => by simp
  | a :: l, acc => by
    simp [List.foldl_cons, foldl_extend_eq_flatten f l]

/- ## Claim theorems: extractor, consolidator, paths, labels, loading -/

/-- C7: for every document and cap, the extractor returns at most
`max_reviews` records, and the records are the extraction of a sublist of
the document's elements (hence in document order), all of which are review
containers. -/
theorem extractor_cap_and_document_order (doc : List Article) (n : Nat) :
    (scrape_reviews_from_file doc n).length ≤ n ∧
    ∃ containers : List Article,
      List.Sublist containers doc ∧
      containers.all isReviewArticle = true ∧
      scrape_reviews_from_file doc n = containers.map extractArticle := by
  refine ⟨?_, (doc.filter isReviewArticle).take n, ?_, ?_, rfl⟩
  · simp [scrape_reviews_from_file, List.length_take]
  · exact (List.take_sublist n _).trans (List.filter_sublist doc)
  · exact List.all_eq_true.mpr fun e he =>
      List.of_mem_filter (List.mem_of_mem_take he)

/-- C8: an airline whose cached document is absent contributes zero
records (without raising — the embedding is total), and consolidation
returns the concatenation of all airlines' contributions in airline
order. -/
theorem consolidator_missing_document (fs : Str → Option (List Article)) (a : Str)
    (h : fs (process_airline_file_path a) = none) :
    process_airline_reviews fs a = [] ∧
    consolidate_reviews fs = (airlines.map (process_airline_reviews fs)).flatten := by
  constructor
  · unfold process_airline_reviews
    rw [h]
  · unfold consolidate_reviews
    exact foldl_extend_eq_flatten _ airlines []

/-- Witness for C8 at a concrete empty cache and the airline `"Qatar"`. -/
theorem consolidator_missing_document_witness :
    process_airline_reviews (fun _ => none) ("Qatar".toList) = [] ∧
    consolidate_reviews (fun _ => none) =
      (airlines.map (process_airline_reviews (fun _ => none))).flatten :=
  consolidator_missing_document (fun _ => none) ("Qatar".toList) rfl

/-- C10: the path the fetcher writes on a successful download and the path
the consolidator checks are the identical function of the airline name
(lower-case, spaces to hyphens, `data/` prefix, `.html` suffix);
concretely, `"Singapore Airlines"` maps to
`"data/singapore-airlines.html"` on both sides. -/
theorem fetcher_consolidator_paths_agree (airline : Str) :
    download_target_path airline = process_airline_file_path airline ∧
    download_target_path ("Singapore Airlines".toList) =
      "data/singapore-airlines.html".toList :=
  ⟨rfl, by decide⟩

/-- C6: the sentiment labeling function is total and three-way exact —
for every polarity `p` it returns `Positive` exactly when `p > 0`,
`Neutral` exactly when `p = 0` (zero is its own class), and `Negative`
exactly when `p < 0`, and its value is always one of the three labels. -/
theorem sentiment_label_total_and_exact (p : ℚ) :
    (get_sentiment_label p = positiveLbl ↔ 0 < p) ∧
    (get_sentiment_label p = neutralLbl ↔ p = 0) ∧
    (get_sentiment_label p = negativeLbl ↔ p < 0) ∧
    (get_sentiment_label p = positiveLbl ∨ get_sentiment_label p = neutralLbl ∨
      get_sentiment_label p = negativeLbl) := by
  have d1 : negativeLbl ≠ positiveLbl := by decide
  have d2 : negativeLbl ≠ neutralLbl := by decide
  have d3 : neutralLbl ≠ positiveLbl := by decide
  unfold get_sentiment_label
  rcases lt_trichotomy p 0 with h | h | h
  · rw [if_pos h]
    exact ⟨⟨fun hh => absurd hh d1, fun hh => absurd h (by linarith)⟩,
           ⟨fun hh => absurd hh d2, fun hh => absurd h (by simp [hh])⟩,
           ⟨fun _ => h, fun _ => rfl⟩, Or.inr (Or.inr rfl)⟩
  · rw [if_neg (by simp [h]), if_pos h]
    exact ⟨⟨fun hh => absurd hh d3, fun hh => absurd h (by linarith)⟩,
           ⟨fun _ => h, fun _ => rfl⟩,
           ⟨fun hh => absurd hh d2.symm, fun hh => absurd h (by linarith)⟩,
           Or.inr (Or.inl rfl)⟩
  · rw [if_neg (by linarith), if_neg (by linarith)]
    exact ⟨⟨fun _ => h, fun _ => rfl⟩,
           ⟨fun hh => absurd hh d3.symm, fun hh => absurd h (by simp [hh])⟩,
           ⟨fun hh => absurd hh d1.symm, fun hh => absurd h (by linarith)⟩,
           Or.inl rfl⟩

/-- The file contents sitting at the path `main.py` actually passes
(`"data/all_reviews.txt"`) in the C5 scenario. -/
def fileAtGivenPath : List Str :=
  [headerLine, [], "Emirates | Great | 5 | Not Verified | nice".toList]

/-- The file contents sitting at the hard-coded path `"all_reviews.txt"`
in the C5 scenario. -/
def fileAtHardCodedPath : List Str :=
  [headerLine, [], "Qatar | Bad | 1 | Not Verified | meh".toList]

/-- A file system holding distinct files at the given and the hard-coded
paths. -/
def fsExample (p : Str) : List Str :=
  if p = "data/all_reviews.txt".toList then fileAtGivenPath
  else if p = allReviewsName then fileAtHardCodedPath
  else []

/-- C5: `load_reviews_df` does not parse the file named by its `file_path`
parameter — called on `"data/all_reviews.txt"` it returns the parse of the
hard-coded `"all_reviews.txt"`, which differs from the parse of the file
actually at the given path (the skip-header/skip-blank-line and
column-trimming behaviour is as claimed, but applied to the wrong
file). -/
theorem load_reviews_df_ignores_file_path :
    load_reviews_df fsExample ("data/all_reviews.txt".toList) =
      parseReviewLines fileAtHardCodedPath ∧
    ¬ load_reviews_df fsExample ("data/all_reviews.txt".toList) =
      parseReviewLines fileAtGivenPath := by
  constructor
  · decide
  · decide

/-- C4 (amended): the verification-statistics computation does not guard
its division by the size of the Negative subset — whenever the negative
subset of the input is empty the computation reaches an unguarded Python
division by zero and fails with `ZeroDivisionError` instead of handling
the case. -/
theorem verification_stats_division_unguarded (data : List NlpRow)
    (h : data.filter (fun r => r.sentiment = negativeLbl) = []) :
    analyse_verification_status data = Except.error "ZeroDivisionError" := by
  unfold analyse_verification_status
  cases data with
  | nil => simp [pyDiv, Bind.bind, Except.bind]
  | cons r rest =>
    have htot : ¬ (((r :: rest).length : ℚ) = 0) := by
      rw [Nat.cast_eq_zero]
      simp
    simp only [pyDiv, h, List.length_nil, Nat.cast_zero, List.filter_nil,
      if_pos rfl, if_neg htot]
    simp [Bind.bind, Except.bind]

/-- Witness for C4 (amended) at a one-row table whose single row has
Neutral sentiment, so the negative subset is empty. -/
theorem verification_stats_division_unguarded_witness :
    ([(⟨"Y".toList, notVerifiedStr, neutralLbl, "meh".toList⟩ : NlpRow)].filter
        (fun r => r.sentiment = negativeLbl) = []) ∧
    analyse_verification_status
        [(⟨"Y".toList, notVerifiedStr, neutralLbl, "meh".toList⟩ : NlpRow)] =
      Except.error "ZeroDivisionError" :=
  ⟨by decide,
   verification_stats_division_unguarded
     [⟨"Y".toList, notVerifiedStr, neutralLbl, "meh".toList⟩] (by decide)⟩

/-- Counterexample to C4 as stated: on a one-row table with Positive
sentiment the division-by-zero branch is reached — the computation fails
with `ZeroDivisionError`, so the failure is not handled. -/
theorem verification_stats_division_reached_cex :
    analyse_verification_status
        [(⟨"X".toList, notVerifiedStr, positiveLbl, "good".toList⟩ : NlpRow)] =
      Except.error "ZeroDivisionError" := by
  unfold analyse_verification_status
  have h : ([(⟨"X".toList, notVerifiedStr, positiveLbl, "good".toList⟩ : NlpRow)].filter
      (fun r => r.sentiment = negativeLbl)) = [] := by decide
  have htot : ¬ ((([(⟨"X".toList, notVerifiedStr, positiveLbl, "good".toList⟩ : NlpRow)]).length : ℚ) = 0) := by
    rw [Nat.cast_eq_zero]
    simp
  simp only [pyDiv, h, List.length_nil, Nat.cast_zero, List.filter_nil,
    if_pos rfl, if_neg htot]
  simp [Bind.bind, Except.bind]

theorem airlineTotal_cons (a : Str) (r : NlpRow) (rs : List NlpRow) :
    airlineTotal a (r :: rs) =
      (if r.airlineName = a then keywordCount r.cleanReview else 0) +
        airlineTotal a rs := by
  unfold airlineTotal
  rw [List.filter_cons]
  by_cases h : r.airlineName = a <;> simp [h]

theorem mem_of_mem_firstDedup : ∀ (l : List Str) (a : Str), a ∈ firstDedup l → a ∈ l
  | [], a, h => by simp [firstDedup] at h
  | b :: l, a, h => by
    rw [firstDedup] at h
    rcases List.mem_cons.mp h with h | h
    · exact h ▸ List.mem_cons_self _ _
    · exact List.mem_cons_of_mem _
        (List.mem_of_mem_filter (mem_of_mem_firstDedup _ a h))
termination_by l _ _ => l.length
decreasing_by
  exact Nat.lt_succ_of_le (List.length_filter_le _ _)

/-- The dict-building fold of `analyse_delays`, characterized over any
starting accumulator: existing keys are bumped by their total over the
remaining rows, and the airlines not yet present are appended in order of
first appearance, each with its accumulated total. -/
theorem foldl_stepCounts_eq :
    ∀ (rows : List NlpRow) (m : List (Str × Nat)),
      rows.foldl stepCounts m =
        m.map (fun p => (p.1, p.2 + airlineTotal p.1 rows)) ++
        (firstDedup ((rows.map (fun r => r.airlineName)).filter
            (fun a => !(m.any (fun p => p.1 = a))))).map
          (fun a => (a, airlineTotal a rows)) := by
  intro rows
  induction rows with
  | nil =>
    intro m
    simp [airlineTotal, firstDedup]
  | cons r rs ih =>
    intro m
    rw [List.foldl_cons, ih (stepCounts m r)]
    by_cases hmem : m.any (fun p => p.1 = r.airlineName)
    · have hstep : stepCounts m r =
          m.map (fun p =>
            if p.1 = r.airlineName then (p.1, p.2 + keywordCount r.cleanReview) else p) := by
        unfold stepCounts
        rw [if_pos hmem]
      have hkeys : ∀ a : Str,
          (stepCounts m r).any (fun p => p.1 = a) = m.any (fun p => p.1 = a) := by
        intro a
        rw [hstep, List.any_map]
        congr 1
        funext x
        by_cases hx : x.1 = r.airlineName <;> simp [hx]
      have h1 : (stepCounts m r).map (fun p => (p.1, p.2 + airlineTotal p.1 rs)) =
          m.map (fun p => (p.1, p.2 + airlineTotal p.1 (r :: rs))) := by
        rw [hstep, List.map_map]
        congr 1
        funext x
        by_cases hx : x.1 = r.airlineName
        · simp [Function.comp, hx, airlineTotal_cons]
          omega
        · have hx' : ¬ (r.airlineName = x.1) := fun hc => hx hc.symm
          simp [Function.comp, hx]
          rw [airlineTotal_cons, if_neg hx']
          omega
      have h2 : ((rs.map (fun r => r.airlineName)).filter
            (fun a => !((stepCounts m r).any (fun p => p.1 = a)))) =
          ((rs.map (fun r => r.airlineName)).filter
            (fun a => !(m.any (fun p => p.1 = a)))) := by
        congr 1
        funext a
        rw [hkeys]
      have h3 : (((r :: rs).map (fun r => r.airlineName)).filter
            (fun a => !(m.any (fun p => p.1 = a)))) =
          ((rs.map (fun r => r.airlineName)).filter
            (fun a => !(m.any (fun p => p.1 = a)))) := by
        rw [List.map_cons, List.filter_cons]
        simp [hmem]
      have h4 : (firstDedup ((rs.map (fun r => r.airlineName)).filter
            (fun a => !(m.any (fun p => p.1 = a))))).map
            (fun a => (a, airlineTotal a rs)) =
          (firstDedup ((rs.map (fun r => r.airlineName)).filter
            (fun a => !(m.any (fun p => p.1 = a))))).map
            (fun a => (a, airlineTotal a (r :: rs))) := by
        apply List.map_congr_left
        intro a ha
        have hflt := mem_of_mem_firstDedup _ a ha
        have hcond := List.of_mem_filter hflt
        have hne : ¬ (r.airlineName = a) := by
          intro hc
          rw [hc] at hmem
          simp [hmem] at hcond
        rw [airlineTotal_cons, if_neg hne]
        simp
      rw [h1, h2, h4, h3]
    · have hstep : stepCounts m r =
          m ++ [(r.airlineName, keywordCount r.cleanReview)] := by
        unfold stepCounts
        rw [if_neg hmem]
      have hout : ∀ x ∈ m, ¬ (x.1 = r.airlineName) := by
        intro x hx hc
        have := List.any_eq_false.mp (Bool.eq_false_iff.mpr hmem) x hx
        simp [hc] at this
      have h1 : (stepCounts m r).map (fun p => (p.1, p.2 + airlineTotal p.1 rs)) =
          m.map (fun p => (p.1, p.2 + airlineTotal p.1 (r :: rs))) ++
          [(r.airlineName, airlineTotal r.airlineName (r :: rs))] := by
        rw [hstep, List.map_append]
        congr 1
        · apply List.map_congr_left
          intro x hx
          have hne : ¬ (r.airlineName = x.1) := fun hc => hout x hx hc.symm
          rw [airlineTotal_cons, if_neg hne]
          simp
        · simp
          rw [airlineTotal_cons, if_pos rfl]
      have h2 : ((rs.map (fun r => r.airlineName)).filter
            (fun a => !((stepCounts m r).any (fun p => p.1 = a)))) =
          (((rs.map (fun r => r.airlineName)).filter
            (fun a => !(m.any (fun p => p.1 = a)))).filter
            (fun b => !(b = r.airlineName))) := by
        rw [hstep, List.filter_filter]
        congr 1
        funext a
        rw [List.any_append]
        by_cases hra : r.airlineName = a
        · simp [hra]
        · have hra' : ¬ (a = r.airlineName) := fun hc => hra hc.symm
          simp [hra, hra']
      have h3 : (((r :: rs).map (fun r => r.airlineName)).filter
            (fun a => !(m.any (fun p => p.1 = a)))) =
          r.airlineName :: ((rs.map (fun r => r.airlineName)).filter
            (fun a => !(m.any (fun p => p.1 = a)))) := by
        rw [List.map_cons, List.filter_cons]
        simp [hmem]
      have h4 : ∀ L : List Str,
          (firstDedup (L.filter (fun b => !(b = r.airlineName)))).map
            (fun a => (a, airlineTotal a rs)) =
          (firstDedup (L.filter (fun b => !(b = r.airlineName)))).map
            (fun a => (a, airlineTotal a (r :: rs))) := by
        intro L
        apply List.map_congr_left
        intro a ha
        have hflt := mem_of_mem_firstDedup _ a ha
        have hcond := List.of_mem_filter hflt
        have hne : ¬ (r.airlineName = a) := by
          intro hc
          simp [hc.symm] at hcond
        rw [airlineTotal_cons, if_neg hne]
        simp
      rw [h1, h2, h3, firstDedup, List.map_cons, h4]
      rw [airlineTotal_cons, if_pos rfl]
      simp

/-- C3: `analyse_delays` equals the specification's delay signal — it
restricts to Negative rows, counts exact-token matches of the keyword set
on the lower-cased whitespace-split clean text, and produces exactly one
row per airline appearing in the negative subset (absent airlines are
absent, not zero); and on the spec's concrete example (a Negative row for
`X` with clean text `"flight was delay and late"` and a Positive row for
`Y`), the result is exactly `[("X", 2)]`. -/
theorem delay_signal_refines_spec :
    (∀ data : List NlpRow, analyse_delays data = specDelaySignal data) ∧
    analyse_delays
        [⟨"X".toList, notVerifiedStr, negativeLbl, "flight was delay and late".toList⟩,
         ⟨"Y".toList, notVerifiedStr, positiveLbl, "great flight".toList⟩] =
      [("X".toList, 2)] := by
  constructor
  · intro data
    unfold analyse_delays specDelaySignal
    rw [foldl_stepCounts_eq]
    simp
  · decide

/- ## String lemmas for the serializer round trip -/

theorem noChar_iff {c : Char} {s : Str} : noChar c s = true ↔ ∀ x ∈ s, ¬ (x = c) := by
  simp [noChar]

theorem noChar_cons {c d : Char} {s : Str} :
    noChar c (d :: s) = true ↔ ¬ (d = c) ∧ noChar c s = true := by
  simp [noChar]

theorem pySplitAll_no_sep {sep : Char} :
    ∀ {s : Str}, noChar sep s = true → pySplitAll sep s = [s]
  | [], _ => rfl
  | c :: rest, h => by
    obtain ⟨hc, hr⟩ := noChar_cons.mp h
    simp only [pySplitAll]
    rw [if_neg hc, pySplitAll_no_sep hr]

theorem pySplitAll_append_sep {sep : Char} :
    ∀ {a : Str}, noChar sep a = true → ∀ (b : Str),
      pySplitAll sep (a ++ sep :: b) = a :: pySplitAll sep b
  | [], _, b => by
    simp [pySplitAll]
  | d :: a, h, b => by
    obtain ⟨hd, ha⟩ := noChar_cons.mp h
    simp only [List.cons_append, pySplitAll, List.append_eq]
    rw [if_neg hd, pySplitAll_append_sep ha b]

theorem splitFirst_none {sep : Char} :
    ∀ {s : Str}, splitFirst sep s = none → noChar sep s = true
  | [], _ => rfl
  | c :: rest, h => by
    simp only [splitFirst] at h
    split_ifs at h with hc
    cases hm : splitFirst sep rest with
    | some p => rw [hm] at h; simp at h
    | none =>
      exact noChar_cons.mpr ⟨hc, splitFirst_none hm⟩

theorem splitFirst_some {sep : Char} :
    ∀ {s v rest : Str}, splitFirst sep s = some (v, rest) →
      s = v ++ sep :: rest ∧ noChar sep v = true
  | [], v, rest, h => by simp [splitFirst] at h
  | c :: s, v, rest, h => by
    simp only [splitFirst] at h
    split_ifs at h with hc
    · cases h
      subst hc
      exact ⟨rfl, rfl⟩
    · cases hm : splitFirst sep s with
      | none => rw [hm] at h; simp at h
      | some p =>
        rw [hm] at h
        obtain ⟨a, b⟩ := p
        cases h
        obtain ⟨hs, ha⟩ := splitFirst_some hm
        exact ⟨by rw [hs]; rfl, noChar_cons.mpr ⟨hc, ha⟩⟩

theorem splitFirst_rest_noChar {b v rest : Str}
    (hs : splitFirst '|' b = some (v, rest))
    (hcount : (b.filter (fun c => c = '|')).length ≤ 1) :
    noChar '|' rest = true := by
  obtain ⟨hb, hv⟩ := splitFirst_some hs
  subst hb
  rw [List.filter_append, List.filter_cons] at hcount
  have hfv : v.filter (fun c => decide (c = '|')) = [] :=
    List.filter_eq_nil_iff.mpr (by
      intro a ha
      simpa using noChar_iff.mp hv a ha)
  rw [hfv] at hcount
  simp at hcount
  exact noChar_iff.mpr hcount

theorem trimRight_cons_space {c : Char} (hc : isSpace c = true) (s : Str) :
    trimRight (s ++ [c]) = trimRight s := by
  simp [trimRight, List.reverse_append, List.dropWhile_cons, hc]

theorem trim_append_space {c : Char} (hc : isSpace c = true) (s : Str) :
    trim (s ++ [c]) = trim s := by
  rw [trim, trimRight_cons_space hc]
  rfl

theorem trim_cons_space {c : Char} (hc : isSpace c = true) (s : Str) :
    trim (c :: s) = trim s := by
  unfold trim trimRight trimLeft
  rw [show (c :: s).reverse = s.reverse ++ [c] by simp]
  rw [List.dropWhile_append]
  by_cases he : (s.reverse.dropWhile isSpace).isEmpty
  · rw [if_pos he]
    rw [List.isEmpty_iff.mp he]
    simp [List.dropWhile_cons, hc]
  · rw [if_neg he]
    rw [List.reverse_append]
    simp only [List.reverse_cons, List.reverse_nil, List.nil_append, List.singleton_append]
    rw [List.dropWhile_cons, if_pos hc]

theorem trimRight_idem (s : Str) : trimRight (trimRight s) = trimRight s := by
  simp [trimRight, List.reverse_reverse, List.dropWhile_idempotent]

theorem trimLeft_fix {u : Str} (hu : u.reverse.dropWhile isSpace = u.reverse) :
    (trimLeft u).reverse.dropWhile isSpace = (trimLeft u).reverse := by
  have hrev : u.reverse = (trimLeft u).reverse ++ (u.takeWhile isSpace).reverse := by
    conv_lhs => rw [show u = u.takeWhile isSpace ++ trimLeft u from
      (List.takeWhile_append_dropWhile isSpace u).symm]
    rw [List.reverse_append]
  rw [hrev, List.dropWhile_append] at hu
  by_cases he : ((trimLeft u).reverse.dropWhile isSpace).isEmpty
  · rw [if_pos he] at hu
    have hlen : ((u.takeWhile isSpace).reverse.dropWhile isSpace).length ≤
        (u.takeWhile isSpace).reverse.length := (List.dropWhile_sublist _).length_le
    have hzero : (trimLeft u).reverse.length = 0 := by
      have := congrArg List.length hu
      rw [List.length_append] at this
      omega
    rw [List.length_eq_zero.mp hzero]
    rfl
  · rw [if_neg he] at hu
    exact List.append_cancel_right hu

theorem trim_idem (s : Str) : trim (trim s) = trim s := by
  have hufix : (trimRight s).reverse.dropWhile isSpace = (trimRight s).reverse := by
    simp [trimRight, List.reverse_reverse, List.dropWhile_idempotent]
  have h2 : trimRight (trimLeft (trimRight s)) = trimLeft (trimRight s) := by
    rw [trimRight, trimLeft_fix hufix, List.reverse_reverse]
  show trimLeft (trimRight (trimLeft (trimRight s))) = trimLeft (trimRight s)
  rw [h2, trimLeft, trimLeft, List.dropWhile_idempotent]

theorem mem_trim {c : Char} {s : Str} (h : c ∈ trim s) : c ∈ s := by
  have h1 : c ∈ trimRight s := (List.dropWhile_sublist _).subset h
  have h2 : c ∈ s.reverse.dropWhile isSpace := List.mem_reverse.mp h1
  exact List.mem_reverse.mp ((List.dropWhile_sublist _).subset h2)

theorem noChar_trim {c : Char} {s : Str} (h : noChar c s = true) :
    noChar c (trim s) = true :=
  noChar_iff.mpr (fun x hx => noChar_iff.mp h x (mem_trim hx))

theorem noChar_append {c : Char} {a b : Str} (ha : noChar c a = true)
    (hb : noChar c b = true) : noChar c (a ++ b) = true :=
  noChar_iff.mpr (fun x hx =>
    (List.mem_append.mp hx).elim (noChar_iff.mp ha x) (noChar_iff.mp hb x))

theorem pySplitAll_five {f1 f2 f3 f4 f5 : Str}
    (h1 : noChar '|' f1 = true) (h2 : noChar '|' f2 = true)
    (h3 : noChar '|' f3 = true) (h4 : noChar '|' f4 = true)
    (h5 : noChar '|' f5 = true) :
    pySplitAll '|'
        (f1 ++ fieldSep ++ f2 ++ fieldSep ++ f3 ++ fieldSep ++ f4 ++ fieldSep ++ f5) =
      [f1 ++ [' '], ' ' :: (f2 ++ [' ']), ' ' :: (f3 ++ [' ']), ' ' :: (f4 ++ [' ']),
       ' ' :: f5] := by
  have sp : noChar '|' [' '] = true := by decide
  have spc : ¬ (' ' = '|') := by decide
  have hS : f1 ++ fieldSep ++ f2 ++ fieldSep ++ f3 ++ fieldSep ++ f4 ++ fieldSep ++ f5 =
      (f1 ++ [' ']) ++ '|' :: ((' ' :: (f2 ++ [' '])) ++ '|' ::
        ((' ' :: (f3 ++ [' '])) ++ '|' :: ((' ' :: (f4 ++ [' '])) ++ '|' ::
          (' ' :: f5)))) := by
    simp [fieldSep]
  rw [hS, pySplitAll_append_sep (noChar_append h1 sp),
      pySplitAll_append_sep (noChar_cons.mpr ⟨spc, noChar_append h2 sp⟩),
      pySplitAll_append_sep (noChar_cons.mpr ⟨spc, noChar_append h3 sp⟩),
      pySplitAll_append_sep (noChar_cons.mpr ⟨spc, noChar_append h4 sp⟩),
      pySplitAll_no_sep (noChar_cons.mpr ⟨spc, h5⟩)]

theorem writeReviewLine_round {r : List Str} (h : wellFormedRecord r = true) :
    ∃ line, writeReviewLine r = some line ∧ ¬ (line = []) ∧
      (pySplitAll '|' line).length = 5 ∧
      (pySplitAll '|' line).map trim = specRoundTripRow r := by
  have hsp : isSpace ' ' = true := by decide
  rcases r with _ | ⟨a, _ | ⟨t, _ | ⟨rt, _ | ⟨b, _ | ⟨x, rest⟩⟩⟩⟩⟩ <;>
    try simp [wellFormedRecord] at h
  obtain ⟨⟨⟨⟨⟨⟨⟨ha1, ha2⟩, ht1⟩, ht2⟩, hrt1⟩, hrt2⟩, hb1⟩, hcnt⟩ := h
  cases hfs : splitFirst '|' b with
  | none =>
    have hbnp : noChar '|' b = true := splitFirst_none hfs
    have hw : writeReviewLine [a, t, rt, b] = some
        (a ++ fieldSep ++ t ++ fieldSep ++ rt ++ fieldSep ++
          notVerifiedStr ++ fieldSep ++ b) := by
      simp [writeReviewLine, hfs]
    refine ⟨_, hw, ?_, ?_, ?_⟩
    · simp [fieldSep]
    · rw [pySplitAll_five ha1 ht1 hrt1 (by decide) hbnp]
      rfl
    · rw [pySplitAll_five ha1 ht1 hrt1 (by decide) hbnp]
      simp only [List.map_cons, List.map_nil, trim_append_space hsp,
        trim_cons_space hsp, specRoundTripRow, hfs]
      rw [show trim notVerifiedStr = notVerifiedStr from by decide]
  | some p =>
    obtain ⟨v, rest⟩ := p
    obtain ⟨hb, hvnp⟩ := splitFirst_some hfs
    have hrnp : noChar '|' rest = true := splitFirst_rest_noChar hfs hcnt
    have hw : writeReviewLine [a, t, rt, b] = some
        (a ++ fieldSep ++ t ++ fieldSep ++ rt ++ fieldSep ++
          trim v ++ fieldSep ++ trim rest) := by
      simp [writeReviewLine, hfs]
    refine ⟨_, hw, ?_, ?_, ?_⟩
    · simp [fieldSep]
    · rw [pySplitAll_five ha1 ht1 hrt1 (noChar_trim hvnp) (noChar_trim hrnp)]
      rfl
    · rw [pySplitAll_five ha1 ht1 hrt1 (noChar_trim hvnp) (noChar_trim hrnp)]
      simp only [List.map_cons, List.map_nil, trim_append_space hsp,
        trim_cons_space hsp, specRoundTripRow, hfs]
      rw [trim_idem, trim_idem]

theorem filterMap_writeReviewLine_round :
    ∀ {reviews : List (List Str)}, wellFormed reviews = true →
      (reviews.filterMap writeReviewLine).length = reviews.length ∧
      (∀ line ∈ reviews.filterMap writeReviewLine, ¬ (line = [])) ∧
      (reviews.filterMap writeReviewLine).map (fun l => (pySplitAll '|' l).map trim) =
        reviews.map specRoundTripRow
  | [], _ => ⟨rfl, by simp, rfl⟩
  | r :: rest, h => by
    obtain ⟨hr, hrest⟩ : wellFormedRecord r = true ∧ wellFormed rest = true := by
      simpa [wellFormed, List.all_cons] using h
    obtain ⟨ih1, ih2, ih3⟩ := filterMap_writeReviewLine_round hrest
    obtain ⟨line, hw, hne, hlen5, hmap⟩ := writeReviewLine_round hr
    rw [List.filterMap_cons, hw]
    refine ⟨by simp [ih1], ?_, ?_⟩
    · intro l hl
      rcases List.mem_cons.mp hl with hh | hh
      · rw [hh]; exact hne
      · exact ih2 l hh
    · rw [List.map_cons, List.map_cons, hmap, ih3]

/-- C1: serializing a well-formed list of records (each exactly
`[airline, title, rating, body]` with separator-clean fields) and then
deserializing the produced file yields one row per input record whose
trimmed fields are exactly Airline/Title/Rating as input (modulo
whitespace trimming) and Verified/Review_Text obtained by splitting the
body on the first embedded separator only, with Verified defaulting to
`"Not Verified"` and the body unmodified when no separator is present. -/
theorem serializer_round_trip (reviews : List (List Str))
    (h : wellFormed reviews = true) :
    (parseReviewLines (save_reviews_to_file reviews)).rows.length = reviews.length ∧
    (parseReviewLines (save_reviews_to_file reviews)).rows.map
        (fun row => row.map trim) = reviews.map specRoundTripRow := by
  obtain ⟨hlen, hne, hmap⟩ := filterMap_writeReviewLine_round h
  have hdata : ((save_reviews_to_file reviews).eraseIdx 1).filter (fun l => !(l = [])) =
      headerLine :: reviews.filterMap writeReviewLine := by
    show ((headerLine :: [] :: reviews.filterMap writeReviewLine).eraseIdx 1).filter
        (fun l => !(l = [])) = _
    rw [List.eraseIdx_cons_succ, List.eraseIdx_cons_zero, List.filter_cons,
      if_pos (by decide : (!(headerLine = [])) = true)]
    congr 1
    rw [List.filter_eq_self]
    intro l hl
    simpa using hne l hl
  simp only [parseReviewLines, hdata]
  constructor
  · simp [hlen]
  · rw [List.map_map]
    exact hmap

/-- A concrete well-formed input for the round-trip witness: one record
with an embedded verification separator, one without. -/
def roundTripExample : List (List Str) :=
  [["British Airways".toList, "Nice trip".toList, "5".toList,
    "Trip Verified |  Great crew".toList],
   ["Lufthansa".toList, "Meh".toList, "2".toList, "average flight".toList]]

/-- Witness for C1 at `roundTripExample`. -/
theorem serializer_round_trip_witness :
    wellFormed roundTripExample = true ∧
    ((parseReviewLines (save_reviews_to_file roundTripExample)).rows.length =
        roundTripExample.length ∧
      (parseReviewLines (save_reviews_to_file roundTripExample)).rows.map
          (fun row => row.map trim) = roundTripExample.map specRoundTripRow) :=
  ⟨by decide, serializer_round_trip roundTripExample (by decide)⟩

/-- The amended C2 hypothesis: a record either does not have the 4-element
shape (and is dropped), or it is separator-clean in the sense of
`wellFormedRecord`. -/
def shapeOrClean (r : List Str) : Bool := !(r.length = 4) || wellFormedRecord r

theorem writeReviewLine_none_of_len {r : List Str} (h : ¬ (r.length = 4)) :
    writeReviewLine r = none := by
  rcases r with _ | ⟨a, _ | ⟨t, _ | ⟨rt, _ | ⟨b, _ | ⟨x, rest⟩⟩⟩⟩⟩ <;>
    first
      | rfl
      | exact absurd rfl h

theorem filterMap_writeReviewLine_shape :
    ∀ {reviews : List (List Str)}, reviews.all shapeOrClean = true →
      (reviews.filterMap writeReviewLine).length =
        (reviews.filter (fun r => r.length = 4)).length ∧
      ∀ line ∈ reviews.filterMap writeReviewLine, (pySplitAll '|' line).length = 5
  | [], _ => ⟨rfl, by simp⟩
  | r :: rest, h => by
    obtain ⟨hr, hrest⟩ : shapeOrClean r = true ∧ rest.all shapeOrClean = true := by
      simpa [List.all_cons] using h
    obtain ⟨ih1, ih2⟩ := filterMap_writeReviewLine_shape hrest
    by_cases hl : r.length = 4
    · have hclean : wellFormedRecord r = true := by
        simpa [shapeOrClean, hl] using hr
      obtain ⟨line, hw, hne, hlen5, hmap⟩ := writeReviewLine_round hclean
      rw [List.filterMap_cons, hw, List.filter_cons, if_pos (by simp [hl])]
      refine ⟨by simp [ih1], ?_⟩
      intro l hl'
      rcases List.mem_cons.mp hl' with hh | hh
      · rw [hh]; exact hlen5
      · exact ih2 l hh
    · rw [List.filterMap_cons, writeReviewLine_none_of_len hl, List.filter_cons,
        if_neg (by simp [hl])]
      exact ⟨ih1, ih2⟩

/-- C2 (amended): for inputs whose 4-element records are separator-clean
(airline/title/rating free of the separator, body with at most one
embedded separator, fields newline-free), every line the serializer writes
after the header and blank line has exactly 5 pipe-delimited fields, and
records without the 4-element shape are dropped, contributing no line. -/
theorem serializer_field_invariant (reviews : List (List Str))
    (h : reviews.all shapeOrClean = true) :
    ((save_reviews_to_file reviews).drop 2).length =
      (reviews.filter (fun r => r.length = 4)).length ∧
    ∀ line ∈ (save_reviews_to_file reviews).drop 2,
      (pySplitAll '|' line).length = 5 :=
  filterMap_writeReviewLine_shape h

/-- A concrete input with one clean 4-element record and one malformed
2-element record for the C2 witness. -/
def shapeExample : List (List Str) :=
  [["A".toList, "T".toList, "5".toList, "V | body".toList],
   ["bad".toList, "row".toList]]

/-- Witness for C2 (amended) at `shapeExample`. -/
theorem serializer_field_invariant_witness :
    shapeExample.all shapeOrClean = true ∧
    (((save_reviews_to_file shapeExample).drop 2).length =
        (shapeExample.filter (fun r => r.length = 4)).length ∧
      ∀ line ∈ (save_reviews_to_file shapeExample).drop 2,
        (pySplitAll '|' line).length = 5) :=
  ⟨by decide, serializer_field_invariant shapeExample (by decide)⟩

/-- Counterexample to C2 as stated: a record whose body holds two embedded
separators produces a written row with 6 pipe-delimited fields, not 5. -/
theorem serializer_field_invariant_cex :
    ∃ line ∈ (save_reviews_to_file
        [["A".toList, "T".toList, "5".toList, "v|x|y".toList]]).drop 2,
      ¬ ((pySplitAll '|' line).length = 5) := by
  decide

/- ## URL-removal idempotence -/

/-- No anchored URL match at any position of `l`. -/
def noUrl : Str → Bool
  | [] => true
  | c :: rest => (urlMatchAt (c :: rest)).isNone && noUrl rest

theorem cleaning_urls_match_some {c : Char} {rest r2 : Str}
    (hm : urlMatchAt (c :: rest) = some r2) :
    cleaning_urls (c :: rest) = cleaning_urls r2 := by
  rw [cleaning_urls]
  split
  · rename_i r2' h
    rw [hm] at h
    injection h with h
    rw [h]
  · rename_i h
    rw [hm] at h
    simp at h

theorem cleaning_urls_match_none {c : Char} {rest : Str}
    (hm : urlMatchAt (c :: rest) = none) :
    cleaning_urls (c :: rest) = c :: cleaning_urls rest := by
  rw [cleaning_urls]
  split
  · rename_i r2' h
    rw [hm] at h
    simp at h
  · rfl

theorem cleaning_urls_nil : cleaning_urls [] = [] := by
  rw [cleaning_urls]

theorem noUrl_cleaning_fix : ∀ {l : Str}, noUrl l = true → cleaning_urls l = l
  | [], _ => cleaning_urls_nil
  | c :: rest, h => by
    obtain ⟨h1, h2⟩ : (urlMatchAt (c :: rest)).isNone = true ∧ noUrl rest = true := by
      simpa [noUrl] using h
    rw [cleaning_urls_match_none (Option.isNone_iff_eq_none.mp h1),
        noUrl_cleaning_fix h2]

theorem isPrefixOf_head {p l : Str} {a b : Char}
    (hp : (a :: p).isPrefixOf (b :: l) = true) : a = b ∧ p.isPrefixOf l = true := by
  simpa [List.isPrefixOf] using hp

theorem isPrefixOf_false_of_space {p : Str} {a : Char} (ha : isSpace a = false)
    {c : Char} (hc : isSpace c = true) (w : Str) :
    (a :: p).isPrefixOf (c :: w) = false := by
  cases hh : (a :: p).isPrefixOf (c :: w)
  · rfl
  · obtain ⟨hac, _⟩ := isPrefixOf_head hh
    rw [hac] at ha
    rw [hc] at ha
    exact absurd ha (by simp)

theorem urlMatchAt_space_head {c : Char} (hc : isSpace c = true) (w : Str) :
    urlMatchAt (c :: w) = none := by
  have h1 : httpsLit.isPrefixOf (c :: w) = false :=
    isPrefixOf_false_of_space (by decide) hc w
  have h2 : httpLit.isPrefixOf (c :: w) = false :=
    isPrefixOf_false_of_space (by decide) hc w
  have h3 : wwwLit.isPrefixOf (c :: w) = false :=
    isPrefixOf_false_of_space (by decide) hc w
  unfold urlMatchAt pickUrlLit
  simp [h1, h2, h3]

theorem pickUrlLit_mem {l p : Str} (h : pickUrlLit l = some p) :
    p = httpsLit ∨ p = httpLit ∨ p = wwwLit := by
  unfold pickUrlLit at h
  split_ifs at h <;> cases h <;> simp

theorem pfx_take_contra {p q l : Str} (hp : p <+: l) (hq : q <+: l)
    (hle : p.length ≤ q.length) : p = q.take p.length := by
  rw [List.prefix_iff_eq_take.mp hq, List.take_take, Nat.min_eq_left hle]
  exact List.prefix_iff_eq_take.mp hp

theorem pickUrlLit_of_pfx {l p : Str}
    (hp : p = httpsLit ∨ p = httpLit ∨ p = wwwLit)
    (h : p.isPrefixOf l = true) : pickUrlLit l = some p := by
  have hpre := List.isPrefixOf_iff_prefix.mp h
  rcases hp with hp | hp | hp <;> subst hp <;> unfold pickUrlLit
  · rw [if_pos h]
  · have hno : httpsLit.isPrefixOf l = false := by
      cases hcon : httpsLit.isPrefixOf l
      · rfl
      · have := pfx_take_contra hpre (List.isPrefixOf_iff_prefix.mp hcon) (by decide)
        exact absurd this (by decide)
    rw [if_neg (by simp [hno]), if_pos h]
  · have hno1 : httpsLit.isPrefixOf l = false := by
      cases hcon : httpsLit.isPrefixOf l
      · rfl
      · have := pfx_take_contra hpre (List.isPrefixOf_iff_prefix.mp hcon) (by decide)
        exact absurd this (by decide)
    have hno2 : httpLit.isPrefixOf l = false := by
      cases hcon : httpLit.isPrefixOf l
      · rfl
      · have := pfx_take_contra hpre (List.isPrefixOf_iff_prefix.mp hcon) (by decide)
        exact absurd this (by decide)
    rw [if_neg (by simp [hno1]), if_neg (by simp [hno2]), if_pos h]

theorem drop_takeWhile_length (q : Char → Bool) : ∀ l : Str,
    l.drop (l.takeWhile q).length = l.dropWhile q
  | [] => rfl
  | c :: rest => by
    rw [List.takeWhile_cons, List.dropWhile_cons]
    by_cases hq : q c
    · simp [hq, drop_takeWhile_length q rest]
    · simp [hq]

theorem sh_dropWhile : ∀ l : Str,
    l.dropWhile (fun d => !(isSpace d)) = [] ∨
    ∃ d w, l.dropWhile (fun d => !(isSpace d)) = d :: w ∧ isSpace d = true
  | [] => Or.inl rfl
  | c :: rest => by
    rw [List.dropWhile_cons]
    by_cases hc : isSpace c = true
    · rw [if_neg (by simp [hc])]
      exact Or.inr ⟨c, rest, rfl, hc⟩
    · rw [if_pos (by simp at hc; simp [hc])]
      exact sh_dropWhile rest

theorem urlMatchAt_rest_sh {l r : Str} (h : urlMatchAt l = some r) :
    r = [] ∨ ∃ d w, r = d :: w ∧ isSpace d = true := by
  unfold urlMatchAt at h
  cases hp : pickUrlLit l with
  | none => rw [hp] at h; simp at h
  | some p =>
    rw [hp] at h
    simp only at h
    split_ifs at h with htok
    injection h with h
    rw [← h, drop_takeWhile_length]
    exact sh_dropWhile _

theorem urlMatchAt_none_of_seam {t v u : Str}
    (hnone : urlMatchAt (t ++ v) = none)
    (hu : u = [] ∨ ∃ c w, u = c :: w ∧ isSpace c = true) :
    urlMatchAt (t ++ u) = none := by
  cases hm : urlMatchAt (t ++ u) with
  | none => rfl
  | some r =>
    exfalso
    unfold urlMatchAt at hm
    cases hp : pickUrlLit (t ++ u) with
    | none => rw [hp] at hm; simp at hm
    | some p =>
      rw [hp] at hm
      simp only at hm
      split_ifs at hm with htok
      have hmem : p = httpsLit ∨ p = httpLit ∨ p = wwwLit := pickUrlLit_mem hp
      have hpre : p <+: (t ++ u) :=
        List.isPrefixOf_iff_prefix.mp (pickUrlLit_some hp).1
      have hnospace : ∀ x ∈ p, isSpace x = false := by
        rcases hmem with hmm | hmm | hmm <;> subst hmm <;> decide
      have hpt : p <+: t := by
        by_cases hlen : p.length ≤ t.length
        · apply List.prefix_iff_eq_take.mpr
          have htk := List.prefix_iff_eq_take.mp hpre
          rw [List.take_append_eq_append_take, Nat.sub_eq_zero_of_le hlen,
            List.take_zero, List.append_nil] at htk
          exact htk
        · exfalso
          rcases hu with hu | ⟨c, w, hu, hc⟩
          · subst hu
            rw [List.append_nil] at hpre
            exact hlen hpre.length_le
          · subst hu
            have hcp : c ∈ p := by
              rw [List.prefix_iff_eq_take.mp hpre, List.take_append_eq_append_take]
              apply List.mem_append.mpr
              right
              have hsub : p.length - t.length = (p.length - t.length - 1) + 1 := by
                omega
              rw [hsub, List.take_succ_cons]
              exact List.mem_cons_self _ _
            exact absurd (hnospace c hcp) (by simp [hc])
      have hplen : p.length ≤ t.length := hpt.length_le
      rcases Nat.lt_or_ge p.length t.length with hlt | hge
      · -- p ends strictly inside t: the next character of t is non-space
        have hdrop : (t ++ u).drop p.length = t.drop p.length ++ u := by
          rw [List.drop_append_eq_append_drop, Nat.sub_eq_zero_of_le hplen,
            List.drop_zero]
        cases hd : t.drop p.length with
        | nil =>
          have := congrArg List.length hd
          rw [List.length_drop] at this
          simp at this
          omega
        | cons d t' =>
          have hq : (!(isSpace d)) = true := by
            by_contra hqc
            apply htok
            rw [hdrop, hd, List.cons_append, List.takeWhile_cons, if_neg (by simpa using hqc)]
          have hpickv : pickUrlLit (t ++ v) = some p :=
            pickUrlLit_of_pfx hmem
              (List.isPrefixOf_iff_prefix.mpr (hpt.trans (List.prefix_append t v)))
          have hdropv : (t ++ v).drop p.length = d :: (t' ++ v) := by
            rw [List.drop_append_eq_append_drop, Nat.sub_eq_zero_of_le hplen,
              List.drop_zero, hd, List.cons_append]
          rw [urlMatchAt, hpickv] at hnone
          simp only at hnone
          rw [hdropv, List.takeWhile_cons, if_pos hq, if_neg (by simp)] at hnone
          simp at hnone
      · -- p.length = t.length: the match token would start at u, which is
        -- empty or space-headed
        have heq : p.length = t.length := by omega
        apply htok
        have hdrop : (t ++ u).drop p.length = u := by
          rw [heq, List.drop_left]
        rw [hdrop]
        rcases hu with hu | ⟨c, w, hu, hc⟩
        · subst hu; rfl
        · subst hu
          rw [List.takeWhile_cons, if_neg (by simp [hc])]

theorem cleaning_urls_seam : ∀ l : Str, ∃ t u v : Str,
    cleaning_urls l = t ++ u ∧ l = t ++ v ∧
    (u = [] ∨ ∃ c w, u = c :: w ∧ isSpace c = true)
  | [] => ⟨[], [], [], by rw [cleaning_urls_nil]; rfl, rfl, Or.inl rfl⟩
  | c :: rest => by
    cases hm : urlMatchAt (c :: rest) with
    | some r2 =>
      have hsh := urlMatchAt_rest_sh hm
      have hone : cleaning_urls (c :: rest) = cleaning_urls r2 :=
        cleaning_urls_match_some hm
      have hout : cleaning_urls r2 = [] ∨
          ∃ d w, cleaning_urls r2 = d :: w ∧ isSpace d = true := by
        rcases hsh with hsh | ⟨d, w, hr, hd⟩
        · rw [hsh]; exact Or.inl cleaning_urls_nil
        · rw [hr, cleaning_urls_match_none (urlMatchAt_space_head hd w)]
          exact Or.inr ⟨d, _, rfl, hd⟩
      exact ⟨[], cleaning_urls r2, c :: rest, by rw [hone]; rfl, rfl, hout⟩
    | none =>
      obtain ⟨t, u, v, h1, h2, h3⟩ := cleaning_urls_seam rest
      exact ⟨c :: t, u, v,
        by rw [cleaning_urls_match_none hm, h1]; rfl,
        by rw [show (c :: t) ++ v = c :: (t ++ v) from rfl, ← h2],
        h3⟩

theorem noUrl_cleaning_urls : ∀ l : Str, noUrl (cleaning_urls l) = true
  | [] => by rw [cleaning_urls_nil]; rfl
  | c :: rest => by
    cases hm : urlMatchAt (c :: rest) with
    | some r2 =>
      rw [cleaning_urls_match_some hm]
      exact noUrl_cleaning_urls r2
    | none =>
      rw [cleaning_urls_match_none hm]
      have hX := noUrl_cleaning_urls rest
      obtain ⟨t, u, v, h1, h2, h3⟩ := cleaning_urls_seam rest
      have hm' : urlMatchAt ((c :: t) ++ v) = none := by
        show urlMatchAt (c :: (t ++ v)) = none
        rw [← h2]
        exact hm
      have hnone : urlMatchAt (c :: cleaning_urls rest) = none := by
        rw [h1]
        show urlMatchAt ((c :: t) ++ u) = none
        exact urlMatchAt_none_of_seam hm' h3
      simp [noUrl, hnone, hX]
termination_by l => l.length
decreasing_by
  all_goals first
    | exact urlMatchAt_some_length hm
    | simp

/-- C9: the punctuation-stripping, digit-removal and URL-removal stages of
the normalizer are each idempotent — applying any one of them to its own
output returns that output unchanged. -/
theorem cleaning_stages_idempotent (text : Str) :
    cleaning_punctuations (cleaning_punctuations text) = cleaning_punctuations text ∧
    cleaning_numbers (cleaning_numbers text) = cleaning_numbers text ∧
    cleaning_urls (cleaning_urls text) = cleaning_urls text := by
  refine ⟨?_, ?_, noUrl_cleaning_fix (noUrl_cleaning_urls text)⟩
  · unfold cleaning_punctuations
    rw [List.filter_filter]
    congr 1
    funext c
    exact Bool.and_self _
  · unfold cleaning_numbers
    rw [List.filter_filter]
    congr 1
    funext c
    exact Bool.and_self _

end ScrapeNLP
